import Mathlib

/-!
Shallow embedding of the c-list circular doubly-linked list
(src/src/c-list.h) and verification of its specification.

Memory model: link nodes live at addresses (`Nat`); the heap maps each
address to the `CList` record stored there (fields `next`, `prev`, both
addresses).  Nullable C pointers (`CList *` arguments that may be NULL)
are modelled as `Option Nat`; non-nullable ones as `Nat`.  Each C function
that mutates the list becomes a function `Heap → ... → Heap` performing
the same field writes in the same order.
-/

/-- struct CList { CList *next; CList *prev; }  (c-list.h lines 43-46). -/
@[ext]
structure CList where
  next : Nat
  prev : Nat
deriving DecidableEq, Repr

/-- The heap: contents of memory at each address. -/
def Heap : Type := Nat → CList

/-- Store the record `v` at address `a`. -/
def heapUpdate (h : Heap) (a : Nat) (v : CList) : Heap :=
  fun x => if x = a then v else h x

/-- The single field write `a->next = v`. -/
def setNext (h : Heap) (a : Nat) (v : Nat) : Heap :=
  heapUpdate h a ⟨v, (h a).prev⟩

/-- The single field write `a->prev = v`. -/
def setPrev (h : Heap) (a : Nat) (v : Nat) : Heap :=
  heapUpdate h a ⟨(h a).next, v⟩

/-- `C_LIST_INIT(_var)`: the self-referential record for the node at
address `x` (c-list.h line 48). -/
def C_LIST_INIT (x : Nat) : CList := ⟨x, x⟩

/-- `c_list_is_linked(CList *what)`: `what && what->next != what`
(c-list.h lines 74-76).  The argument may be NULL (`none`). -/
def c_list_is_linked (h : Heap) (what : Option Nat) : Bool :=
  match what with
  | none => false
  | some w => decide ((h w).next ≠ w)

/-- `c_list_is_empty(CList *list)`: `!list || !c_list_is_linked(list)`
(c-list.h lines 84-86). -/
def c_list_is_empty (h : Heap) (list : Option Nat) : Bool :=
  match list with
  | none => true
  | some l => !c_list_is_linked h (some l)

/-- `c_list_link_before(CList *where, CList *what)` (c-list.h lines
102-109): captures `prev = where->prev`, `next = where`, then performs
the four writes `next->prev = what; what->next = next; what->prev = prev;
prev->next = what` in source order. -/
def c_list_link_before (h : Heap) (w : Nat) (t : Nat) : Heap :=
  let prev := (h w).prev
  let next := w
  let h1 := setPrev h next t
  let h2 := setNext h1 t next
  let h3 := setPrev h2 t prev
  setNext h3 prev t

/-- `c_list_link_tail(_list, _what)` is an alias of `c_list_link_before`
(c-list.h line 110). -/
def c_list_link_tail (h : Heap) (l : Nat) (t : Nat) : Heap :=
  c_list_link_before h l t

/-- `c_list_link_after(CList *where, CList *what)` (c-list.h lines
126-133).  NOTE: the body in this source revision is identical to
`c_list_link_before` — it captures `prev = where->prev`, `next = where`
(not `prev = where`, `next = where->next`) and performs the same four
writes. -/
def c_list_link_after (h : Heap) (w : Nat) (t : Nat) : Heap :=
  let prev := (h w).prev
  let next := w
  let h1 := setPrev h next t
  let h2 := setNext h1 t next
  let h3 := setPrev h2 t prev
  setNext h3 prev t

/-- `c_list_link_front(_list, _what)` is an alias of `c_list_link_after`
(c-list.h line 134). -/
def c_list_link_front (h : Heap) (l : Nat) (t : Nat) : Heap :=
  c_list_link_after h l t

/-- `c_list_unlink(CList *what)` (c-list.h lines 147-152): captures
`prev = what->prev`, `next = what->next`, then `next->prev = prev;
prev->next = next`. -/
def c_list_unlink (h : Heap) (t : Nat) : Heap :=
  let prev := (h t).prev
  let next := (h t).next
  let h1 := setPrev h next prev
  setNext h1 prev next

/-- `c_list_unlink_init(CList *what)` (c-list.h lines 160-166): if
`c_list_is_linked(what)`, unlink then `*what = (CList)C_LIST_INIT(*what)`. -/
def c_list_unlink_init (h : Heap) (t : Nat) : Heap :=
  if c_list_is_linked h (some t) then
    heapUpdate (c_list_unlink h t) t (C_LIST_INIT t)
  else h

/-- `c_list_loop_first(list)`: `list->next` (c-list.h lines 177-179). -/
def c_list_loop_first (h : Heap) (list : Nat) : Nat := (h list).next

/-- `c_list_loop_last(list)`: `list->prev` (c-list.h lines 190-192). -/
def c_list_loop_last (h : Heap) (list : Nat) : Nat := (h list).prev

/-- `c_list_loop_next(what)`: `what->next` (c-list.h lines 203-205). -/
def c_list_loop_next (h : Heap) (what : Nat) : Nat := (h what).next

/-- `c_list_loop_prev(what)`: `what->prev` (c-list.h lines 217-219). -/
def c_list_loop_prev (h : Heap) (what : Nat) : Nat := (h what).prev

/-- `c_list_first(list)`: `c_list_is_empty(list) ? NULL : list->next`
(c-list.h lines 295-297). -/
def c_list_first (h : Heap) (list : Option Nat) : Option Nat :=
  if c_list_is_empty h list then none
  else match list with
       | none => none
       | some l => some ((h l).next)

/-- `c_list_last(list)`: `c_list_is_empty(list) ? NULL : list->prev`
(c-list.h lines 308-310). -/
def c_list_last (h : Heap) (list : Option Nat) : Option Nat :=
  if c_list_is_empty h list then none
  else match list with
       | none => none
       | some l => some ((h l).prev)

/-- `c_list_entry(_what, _t, _m)` (c-list.h lines 64-66): with `off` the
byte offset of the embedded link member in the container type, a non-NULL
link reference at address `a` is mapped to the container address `a - off`;
a NULL reference takes the `?:` fallback `NULL + off` and the subtraction
returns NULL. -/
def c_list_entry (what : Option Nat) (off : Nat) : Option Nat :=
  match what with
  | none => none
  | some a => some (a - off)

/-- One pass of the `c_list_for_each_safe` loop (c-list.h lines 250-253)
whose body unlinks the current entry: from state `(h, iter, safe)`, stop
when `iter == list`; otherwise run the body `c_list_unlink(iter)`, then
advance `iter = safe, safe = c_list_loop_next(safe)`.  `fuel` bounds the
number of iterations; the visited entries are returned in order. -/
def forEachSafeUnlinkAux : Nat → Heap → Nat → Nat → Nat → Heap × List Nat
  | 0, h, _, _, _ => (h, [])
  | fuel + 1, h, list, iter, safe =>
    if iter = list then (h, [])
    else
      let h2 := c_list_unlink h iter
      let r := forEachSafeUnlinkAux fuel h2 list safe (c_list_loop_next h2 safe)
      (r.1, iter :: r.2)

/-- The full removal-safe loop with an unlinking body: initialises
`iter = c_list_loop_first(list)`, `safe = c_list_loop_next(iter)` as the
macro does, then iterates. -/
def c_list_for_each_safe_unlink (h : Heap) (list : Nat) (fuel : Nat) :
    Heap × List Nat :=
  let iter := c_list_loop_first h list
  let safe := c_list_loop_next h iter
  forEachSafeUnlinkAux fuel h list iter safe

/-- Ring-consistency invariant over the set `S` of linked nodes: `S` is
closed under `next`/`prev` and every member satisfies
`y.next.prev == y` and `y.prev.next == y`. -/
def CListInv (h : Heap) (S : Finset Nat) : Prop :=
  ∀ y ∈ S, (h y).next ∈ S ∧ (h y).prev ∈ S ∧
    (h ((h y).next)).prev = y ∧ (h ((h y).prev)).next = y

instance (h : Heap) (S : Finset Nat) : Decidable (CListInv h S) := by
  unfold CListInv
  exact Finset.decidableDforallFinset

@[simp]
theorem heapUpdate_same (h : Heap) (a : Nat) (v : CList) :
    heapUpdate h a v a = v := by
  simp [heapUpdate]

theorem heapUpdate_other (h : Heap) (a : Nat) (v : CList) {x : Nat}
    (hx : x ≠ a) : heapUpdate h a v x = h x := by
  simp [heapUpdate, hx]

/-- Pointwise effect of `c_list_link_before` when the anchor is
self-referential (`where->prev == where`, the empty-head case). -/
theorem link_before_apply_self (h : Heap) (w t : Nat) (hp : (h w).prev = w)
    (ht : t ≠ w) (x : Nat) :
    c_list_link_before h w t x =
      if x = w then ⟨t, t⟩ else if x = t then ⟨w, w⟩ else h x := by
  simp only [c_list_link_before, setNext, setPrev, heapUpdate, hp]
  split_ifs <;> simp_all

/-- Pointwise effect of `c_list_link_before` when the anchor's
predecessor is a different node. -/
theorem link_before_apply_ne (h : Heap) (w t : Nat) (hp : (h w).prev ≠ w)
    (ht : t ≠ w) (htp : t ≠ (h w).prev) (x : Nat) :
    c_list_link_before h w t x =
      if x = w then ⟨(h w).next, t⟩
      else if x = t then ⟨w, (h w).prev⟩
      else if x = (h w).prev then ⟨t, (h ((h w).prev)).prev⟩
      else h x := by
  have hp' : w ≠ (h w).prev := Ne.symm hp
  have ht' : w ≠ t := Ne.symm ht
  have htp' : (h w).prev ≠ t := Ne.symm htp
  by_cases hxw : x = w
  · subst hxw
    simp [c_list_link_before, setNext, setPrev, heapUpdate, hp, hp', ht, ht',
      htp, htp']
  · by_cases hxt : x = t
    · subst hxt
      simp [c_list_link_before, setNext, setPrev, heapUpdate, hp, hp', ht, ht',
        htp, htp']
    · by_cases hxp : x = (h w).prev
      · subst hxp
        simp [c_list_link_before, setNext, setPrev, heapUpdate, hp, hp', ht, ht',
          htp, htp']
      · simp [c_list_link_before, setNext, setPrev, heapUpdate, hxw, hxt, hxp]

/-- `c_list_unlink` of a self-referential node leaves the heap pointwise
unchanged. -/
theorem unlink_apply_self (h : Heap) (t : Nat) (hn : (h t).next = t)
    (hp : (h t).prev = t) (x : Nat) : c_list_unlink h t x = h x := by
  have hteq : h t = ⟨t, t⟩ := CList.ext hn hp
  by_cases hxt : x = t
  · subst hxt
    simp [c_list_unlink, setNext, setPrev, heapUpdate, hn, hp, hteq]
  · simp [c_list_unlink, setNext, setPrev, heapUpdate, hn, hp, hxt]

/-- Pointwise effect of `c_list_unlink` in a two-node ring
(`what->next == what->prev != what`). -/
theorem unlink_apply_two (h : Heap) (t : Nat) (hnp : (h t).next = (h t).prev)
    (hn : (h t).next ≠ t) (x : Nat) :
    c_list_unlink h t x =
      if x = (h t).next then ⟨(h t).next, (h t).next⟩ else h x := by
  simp only [c_list_unlink, setNext, setPrev, heapUpdate, ← hnp]
  split_ifs <;> simp_all

/-- Pointwise effect of `c_list_unlink` when `what`, its successor and
its predecessor are three distinct nodes. -/
theorem unlink_apply_ne (h : Heap) (t : Nat) (hnp : (h t).next ≠ (h t).prev)
    (x : Nat) :
    c_list_unlink h t x =
      if x = (h t).next then ⟨(h ((h t).next)).next, (h t).prev⟩
      else if x = (h t).prev then ⟨(h t).next, (h ((h t).prev)).prev⟩
      else h x := by
  simp only [c_list_unlink, setNext, setPrev, heapUpdate]
  split_ifs <;> simp_all

theorem CListInv.next_mem {h : Heap} {S : Finset Nat} (hinv : CListInv h S)
    {y : Nat} (hy : y ∈ S) : (h y).next ∈ S := (hinv y hy).1

theorem CListInv.prev_mem {h : Heap} {S : Finset Nat} (hinv : CListInv h S)
    {y : Nat} (hy : y ∈ S) : (h y).prev ∈ S := (hinv y hy).2.1

theorem CListInv.next_prev {h : Heap} {S : Finset Nat} (hinv : CListInv h S)
    {y : Nat} (hy : y ∈ S) : (h ((h y).next)).prev = y := (hinv y hy).2.2.1

theorem CListInv.prev_next {h : Heap} {S : Finset Nat} (hinv : CListInv h S)
    {y : Nat} (hy : y ∈ S) : (h ((h y).prev)).next = y := (hinv y hy).2.2.2

/-- Under the invariant, a node is self-referential in `next` iff it is
self-referential in `prev`. -/
theorem CListInv.self_iff {h : Heap} {S : Finset Nat} (hinv : CListInv h S)
    {y : Nat} (hy : y ∈ S) : (h y).next = y ↔ (h y).prev = y := by
  constructor
  · intro hn
    have := hinv.next_prev hy
    rwa [hn] at this
  · intro hp
    have := hinv.prev_next hy
    rwa [hp] at this

/-- Under the invariant, the predecessor of a node's successor is the node. -/
theorem CListInv.prev_of_next {h : Heap} {S : Finset Nat} (hinv : CListInv h S)
    {y z : Nat} (hy : y ∈ S) (hz : (h y).next = z) : (h z).prev = y := by
  have := hinv.next_prev hy
  rwa [hz] at this

/-- Under the invariant, the successor of a node's predecessor is the node. -/
theorem CListInv.next_of_prev {h : Heap} {S : Finset Nat} (hinv : CListInv h S)
    {y z : Nat} (hy : y ∈ S) (hz : (h y).prev = z) : (h z).next = y := by
  have := hinv.prev_next hy
  rwa [hz] at this

-- Sanity checks on a concrete two-entry ring (head 0, entries 1 and 2).
example :
    let h0 : Heap := fun _ => ⟨0, 0⟩
    let h2 := c_list_link_tail (c_list_link_tail h0 0 1) 0 2
    c_list_first h2 (some 0) = some 1 ∧ c_list_last h2 (some 0) = some 2 := by
  decide

example :
    let h0 : Heap := fun _ => ⟨0, 0⟩
    let h2 := c_list_link_tail (c_list_link_tail h0 0 1) 0 2
    (c_list_for_each_safe_unlink h2 0 3).2 = [1, 2] ∧
      c_list_is_empty (c_list_for_each_safe_unlink h2 0 3).1 (some 0) = true := by
  decide

example :
    let h0 : Heap := fun _ => ⟨0, 0⟩
    CListInv (c_list_link_tail h0 0 1) ({0, 1} : Finset Nat) := by
  decide

/-- C6: a freshly initialized Link `x` (`next == prev == x` via
`C_LIST_INIT`) has `is_linked(x) == false` and `is_empty(x) == true`;
in general `is_linked(l)` is true iff `l` is non-absent and
`l.next != l`, and `is_empty(h)` is true iff `h` is absent or
`is_linked(h)` is false. -/
theorem c6_is_linked_is_empty_spec :
    (∀ (h : Heap) (x : Nat), h x = C_LIST_INIT x →
      c_list_is_linked h (some x) = false ∧
      c_list_is_empty h (some x) = true) ∧
    (∀ (h : Heap) (l : Option Nat),
      c_list_is_linked h l = true ↔ ∃ a, l = some a ∧ (h a).next ≠ a) ∧
    (∀ (h : Heap) (l : Option Nat),
      c_list_is_empty h l = true ↔
        (l = none ∨ c_list_is_linked h l = false)) := by
  refine ⟨?_, ?_, ?_⟩
  · intro h x hx
    simp [c_list_is_linked, c_list_is_empty, hx, C_LIST_INIT]
  · intro h l
    cases l <;> simp [c_list_is_linked]
  · intro h l
    cases l <;> simp [c_list_is_empty, c_list_is_linked]

theorem c6_witness :
    c_list_is_linked (fun _ => C_LIST_INIT 0) (some 0) = false ∧
    c_list_is_empty (fun _ => C_LIST_INIT 0) (some 0) = true :=
  c6_is_linked_is_empty_spec.1 (fun _ => C_LIST_INIT 0) 0 rfl

/-- C9: `entry` applied to a reference to the embedded link field of a
record at address `r` (the field sits at byte offset `off`, so the field
reference is `r + off`) recovers `r` itself, and `entry` applied to an
absent reference returns absent. -/
theorem c9_entry_container_of :
    (∀ (r off : Nat), c_list_entry (some (r + off)) off = some r) ∧
    (∀ off : Nat, c_list_entry none off = none) := by
  constructor
  · intro r off
    simp [c_list_entry]
  · intro off
    simp [c_list_entry]

/-- C10: in this source revision `c_list_link_after` and
`c_list_link_before` have identical bodies, hence are extensionally equal
as state transformers, and the aliases `c_list_link_front` and
`c_list_link_tail` are extensionally equal as well. -/
theorem c10_link_after_eq_link_before :
    c_list_link_after = c_list_link_before ∧
    c_list_link_front = c_list_link_tail :=
  ⟨rfl, rfl⟩

/-- C1 (failing input): start from head 0 holding the single entry 1,
then call `c_list_link_after(head, 2)`.  The claim (and the function's
own documentation) says 2 becomes the new front, so `c_list_first`
should return 2; the code instead splices 2 before the head, so
`c_list_first` still returns 1 and 2 became the tail. -/
theorem c1_link_after_bug :
    c_list_first
        (c_list_link_after (c_list_link_tail (fun _ => C_LIST_INIT 0) 0 1) 0 2)
        (some 0) = some 1 ∧
    c_list_last
        (c_list_link_after (c_list_link_tail (fun _ => C_LIST_INIT 0) 0 1) 0 2)
        (some 0) = some 2 := by
  decide

/-- C5: `c_list_unlink_init(what)` is exactly the composite
"test `is_linked(what)`, and if true `unlink(what)` then re-init", and
afterwards `what` is self-referential, not linked, and empty as a head.
The hypothesis states that `what` is initialized: if its `next` is
self-referential then so is its `prev`. -/
theorem c5_unlink_init_spec (h : Heap) (t : Nat)
    (hinit : (h t).next = t → (h t).prev = t) :
    c_list_unlink_init h t =
      (if c_list_is_linked h (some t) then
        heapUpdate (c_list_unlink h t) t (C_LIST_INIT t)
      else h) ∧
    (c_list_unlink_init h t) t = C_LIST_INIT t ∧
    c_list_is_linked (c_list_unlink_init h t) (some t) = false ∧
    c_list_is_empty (c_list_unlink_init h t) (some t) = true := by
  refine ⟨rfl, ?_, ?_, ?_⟩
  · by_cases hl : c_list_is_linked h (some t) = true
    · simp [c_list_unlink_init, hl]
    · have hn : (h t).next = t := by
        simpa [c_list_is_linked] using hl
      have hp : (h t).prev = t := hinit hn
      simp [c_list_unlink_init, hl, C_LIST_INIT]
      exact CList.ext hn hp
  · by_cases hl : c_list_is_linked h (some t) = true
    · have hne : (h t).next ≠ t := by
        simpa [c_list_is_linked] using hl
      simp [c_list_unlink_init, c_list_is_linked, hne, C_LIST_INIT]
    · have hn : (h t).next = t := by
        simpa [c_list_is_linked] using hl
      simp [c_list_unlink_init, c_list_is_linked, hn]
  · by_cases hl : c_list_is_linked h (some t) = true
    · have hne : (h t).next ≠ t := by
        simpa [c_list_is_linked] using hl
      simp [c_list_unlink_init, c_list_is_empty, c_list_is_linked, hne,
        C_LIST_INIT]
    · have hn : (h t).next = t := by
        simpa [c_list_is_linked] using hl
      simp [c_list_unlink_init, c_list_is_empty, c_list_is_linked, hn]

theorem c5_witness :
    (c_list_unlink_init (c_list_link_tail (fun _ => C_LIST_INIT 0) 0 1) 1) 1 =
      C_LIST_INIT 1 ∧
    c_list_is_linked
      (c_list_unlink_init (c_list_link_tail (fun _ => C_LIST_INIT 0) 0 1) 1)
      (some 1) = false ∧
    c_list_is_empty
      (c_list_unlink_init (c_list_link_tail (fun _ => C_LIST_INIT 0) 0 1) 1)
      (some 1) = true := by
  have hc := c5_unlink_init_spec
    (c_list_link_tail (fun _ => C_LIST_INIT 0) 0 1) 1 (by decide)
  exact ⟨hc.2.1, hc.2.2.1, hc.2.2.2⟩

/-- C7: `c_list_first(head)` is absent exactly when `is_empty(head)`,
otherwise it is `head.next`; likewise `c_list_last` with `head.prev`;
and on a consistent ring neither ever returns the head itself. -/
theorem c7_first_last_spec :
    (∀ (h : Heap) (l : Option Nat),
      (c_list_first h l = none ↔ c_list_is_empty h l = true) ∧
      (c_list_last h l = none ↔ c_list_is_empty h l = true)) ∧
    (∀ (h : Heap) (a : Nat), c_list_is_empty h (some a) = false →
      c_list_first h (some a) = some ((h a).next) ∧
      c_list_last h (some a) = some ((h a).prev)) ∧
    (∀ (h : Heap) (S : Finset Nat) (hd : Nat), CListInv h S → hd ∈ S →
      c_list_first h (some hd) ≠ some hd ∧
      c_list_last h (some hd) ≠ some hd) := by
  refine ⟨?_, ?_, ?_⟩
  · intro h l
    cases l with
    | none => simp [c_list_first, c_list_last, c_list_is_empty]
    | some a =>
      by_cases he : c_list_is_empty h (some a) = true <;>
        simp_all [c_list_first, c_list_last]
  · intro h a he
    simp [c_list_first, c_list_last, he]
  · intro h S hd hinv hhd
    by_cases he : c_list_is_empty h (some hd) = true
    · simp [c_list_first, c_list_last, he]
    · have hne : (h hd).next ≠ hd := by
        simpa [c_list_is_empty, c_list_is_linked] using he
      have hpe : (h hd).prev ≠ hd := fun hp =>
        hne ((hinv.self_iff hhd).mpr hp)
      simp [c_list_first, c_list_last, he, hne, hpe]

theorem c7_witness :
    c_list_first (c_list_link_tail (fun _ => C_LIST_INIT 0) 0 1) (some 0) ≠
      some 0 ∧
    c_list_last (c_list_link_tail (fun _ => C_LIST_INIT 0) 0 1) (some 0) ≠
      some 0 :=
  c7_first_last_spec.2.2 (c_list_link_tail (fun _ => C_LIST_INIT 0) 0 1)
    ({0, 1} : Finset Nat) 0 (by decide) (by decide)

/-- C4: unlinking a node `t` that is linked in a ring with at least one
other node writes exactly `prev.next = t.next` and `next.prev = t.prev`,
leaves every other address untouched, and in particular does not modify
`t` itself: `t.next`/`t.prev` keep their old values. -/
theorem c4_unlink_frame (h : Heap) (S : Finset Nat) (t : Nat)
    (hinv : CListInv h S) (ht : t ∈ S) (hn : (h t).next ≠ t) :
    (c_list_unlink h t) t = h t ∧
    ((c_list_unlink h t) ((h t).prev)).next = (h t).next ∧
    ((c_list_unlink h t) ((h t).next)).prev = (h t).prev ∧
    (∀ x, x ≠ (h t).prev → x ≠ (h t).next → c_list_unlink h t x = h x) := by
  have hp : (h t).prev ≠ t := fun hp => hn ((hinv.self_iff ht).mpr hp)
  by_cases hnp : (h t).next = (h t).prev
  · have e := unlink_apply_two h t hnp hn
    refine ⟨?_, ?_, ?_, ?_⟩
    · rw [e t, if_neg (fun hc => hn hc.symm)]
    · rw [e ((h t).prev), if_pos hnp.symm, hnp]
    · rw [e ((h t).next), if_pos rfl, hnp]
    · intro x hxp hxn
      rw [e x, if_neg (fun hc => hxn hc)]
  · have e := unlink_apply_ne h t hnp
    refine ⟨?_, ?_, ?_, ?_⟩
    · rw [e t, if_neg (fun hc => hn hc.symm), if_neg (fun hc => hp hc.symm)]
    · rw [e ((h t).prev), if_neg (fun hc => hnp hc.symm), if_pos rfl]
    · rw [e ((h t).next), if_pos rfl]
    · intro x hxp hxn
      rw [e x, if_neg (fun hc => hxn hc), if_neg (fun hc => hxp hc)]

theorem c4_witness :
    (c_list_unlink (c_list_link_tail (fun _ => C_LIST_INIT 0) 0 1) 1) 1 =
      (c_list_link_tail (fun _ => C_LIST_INIT 0) 0 1) 1 ∧
    ((c_list_unlink (c_list_link_tail (fun _ => C_LIST_INIT 0) 0 1) 1)
        (((c_list_link_tail (fun _ => C_LIST_INIT 0) 0 1) 1).prev)).next =
      ((c_list_link_tail (fun _ => C_LIST_INIT 0) 0 1) 1).next := by
  have hc := c4_unlink_frame (c_list_link_tail (fun _ => C_LIST_INIT 0) 0 1)
    ({0, 1} : Finset Nat) 1 (by decide) (by decide) (by decide)
  exact ⟨hc.1, hc.2.1⟩

/-- C3: `c_list_link_before(where, what)` splices `what` immediately
before `where`: with `p` the value of `where.prev` before the call, the
new heap has `where.prev = what`, `what.next = where`, `what.prev = p`,
`p.next = what` and every other address unchanged; `c_list_link_tail` is
the same operation, and when `where` is a head the new last element is
`what`. -/
theorem c3_link_before_spec (h : Heap) (S : Finset Nat) (w t : Nat)
    (hinv : CListInv h S) (hw : w ∈ S) (ht : t ∉ S) :
    ((c_list_link_before h w t) w).prev = t ∧
    ((c_list_link_before h w t) t).next = w ∧
    ((c_list_link_before h w t) t).prev = (h w).prev ∧
    ((c_list_link_before h w t) ((h w).prev)).next = t ∧
    (∀ x, x ≠ w → x ≠ t → x ≠ (h w).prev → c_list_link_before h w t x = h x) ∧
    c_list_link_tail h w t = c_list_link_before h w t ∧
    c_list_last (c_list_link_before h w t) (some w) = some t := by
  have htw : t ≠ w := fun hc => ht (hc ▸ hw)
  have htp : t ≠ (h w).prev := fun hc => ht (hc ▸ hinv.prev_mem hw)
  by_cases hpw : (h w).prev = w
  · have e := link_before_apply_self h w t hpw htw
    have hw' : (c_list_link_before h w t) w = ⟨t, t⟩ := by
      rw [e w, if_pos rfl]
    have ht' : (c_list_link_before h w t) t = ⟨w, w⟩ := by
      rw [e t, if_neg htw, if_pos rfl]
    refine ⟨?_, ?_, ?_, ?_, ?_, rfl, ?_⟩
    · rw [hw']
    · rw [ht']
    · rw [ht', hpw]
    · rw [hpw, hw']
    · intro x hxw hxt _
      rw [e x, if_neg hxw, if_neg hxt]
    · have : c_list_is_empty (c_list_link_before h w t) (some w) = false := by
        simp [c_list_is_empty, c_list_is_linked, hw', htw, Ne.symm htw]
      simp [c_list_last, this, hw']
  · have e := link_before_apply_ne h w t hpw htw htp
    have hw' : (c_list_link_before h w t) w = ⟨(h w).next, t⟩ := by
      rw [e w, if_pos rfl]
    have ht' : (c_list_link_before h w t) t = ⟨w, (h w).prev⟩ := by
      rw [e t, if_neg htw, if_pos rfl]
    have hp' : (c_list_link_before h w t) ((h w).prev) =
        ⟨t, (h ((h w).prev)).prev⟩ := by
      rw [e ((h w).prev), if_neg hpw, if_neg (Ne.symm htp), if_pos rfl]
    refine ⟨?_, ?_, ?_, ?_, ?_, rfl, ?_⟩
    · rw [hw']
    · rw [ht']
    · rw [ht']
    · rw [hp']
    · intro x hxw hxt hxp
      rw [e x, if_neg hxw, if_neg hxt, if_neg hxp]
    · have hnw : (h w).next ≠ w := fun hc => hpw ((hinv.self_iff hw).mp hc)
      have : c_list_is_empty (c_list_link_before h w t) (some w) = false := by
        simp [c_list_is_empty, c_list_is_linked, hw', hnw]
      simp [c_list_last, this, hw']

theorem c3_witness :
    ((c_list_link_before (fun _ => C_LIST_INIT 0) 0 1) 0).prev = 1 ∧
    ((c_list_link_before (fun _ => C_LIST_INIT 0) 0 1) 1).next = 0 ∧
    c_list_last (c_list_link_before (fun _ => C_LIST_INIT 0) 0 1) (some 0) =
      some 1 := by
  have hc := c3_link_before_spec (fun _ => C_LIST_INIT 0)
    ({0} : Finset Nat) 0 1 (by decide) (by decide) (by decide)
  exact ⟨hc.1, hc.2.1, hc.2.2.2.2.2.2⟩

/-- Running the removal-safe unlinking loop on a ring
`hd → a → b → hd` visits `[a, b]` and empties the head. -/
theorem forEachSafe_two_ring (H : Heap) (hd a b : Nat)
    (hda : hd ≠ a) (hdb : hd ≠ b) (hab : a ≠ b)
    (Hhd : H hd = ⟨a, b⟩) (Ha : H a = ⟨b, hd⟩) (Hb : H b = ⟨hd, a⟩) :
    (c_list_for_each_safe_unlink H hd 3).2 = [a, b] ∧
    c_list_is_empty (c_list_for_each_safe_unlink H hd 3).1 (some hd) =
      true := by
  have e3 := unlink_apply_ne H a (by simp [Ha]; exact fun hc => hdb hc.symm)
  simp only [Ha, Hb, Hhd] at e3
  have l1 : c_list_loop_next (c_list_unlink H a) b = hd := by
    simp [c_list_loop_next, e3 b]
  have h3b : c_list_unlink H a b = ⟨hd, hd⟩ := by
    rw [e3 b, if_pos rfl]
  have e4 := unlink_apply_two (c_list_unlink H a) b (by simp [h3b])
    (by simp [h3b]; exact hdb)
  simp only [h3b] at e4
  have h4hd : c_list_unlink (c_list_unlink H a) b hd = ⟨hd, hd⟩ := by
    rw [e4 hd, if_pos rfl]
  have i0 : c_list_loop_first H hd = a := by simp [c_list_loop_first, Hhd]
  have s0 : c_list_loop_next H a = b := by simp [c_list_loop_next, Ha]
  constructor
  · simp only [c_list_for_each_safe_unlink, i0, s0, forEachSafeUnlinkAux,
      if_neg (Ne.symm hda), if_neg (Ne.symm hdb), l1, if_pos rfl]
    simp
  · simp only [c_list_for_each_safe_unlink, i0, s0, forEachSafeUnlinkAux,
      if_neg (Ne.symm hda), if_neg (Ne.symm hdb), l1, if_pos rfl]
    simp [c_list_is_empty, c_list_is_linked, h4hd]

/-- C8: with two distinct entries `a` then `b` linked into an initialized
head `hd` via `c_list_link_tail`, the removal-safe loop whose body
unlinks the current entry visits exactly `[a, b]` in link order and
leaves the head empty. -/
theorem c8_safe_iteration_unlink_all (h0 : Heap) (hd a b : Nat)
    (hda : hd ≠ a) (hdb : hd ≠ b) (hab : a ≠ b)
    (hinit : h0 hd = C_LIST_INIT hd) :
    (c_list_for_each_safe_unlink
        (c_list_link_tail (c_list_link_tail h0 hd a) hd b) hd 3).2 =
      [a, b] ∧
    c_list_is_empty
      (c_list_for_each_safe_unlink
        (c_list_link_tail (c_list_link_tail h0 hd a) hd b) hd 3).1
      (some hd) = true := by
  have e1 := link_before_apply_self h0 hd a
    (by simp [hinit, C_LIST_INIT]) (Ne.symm hda)
  have f1 : ∀ x, c_list_link_tail h0 hd a x =
      if x = hd then ⟨a, a⟩ else if x = a then ⟨hd, hd⟩ else h0 x := by
    intro x
    exact e1 x
  have p1 : (c_list_link_tail h0 hd a hd).prev = a := by
    rw [f1 hd, if_pos rfl]
  have n1 : (c_list_link_tail h0 hd a hd).next = a := by
    rw [f1 hd, if_pos rfl]
  have e2 := link_before_apply_ne (c_list_link_tail h0 hd a) hd b
    (by rw [p1]; exact Ne.symm hda) (Ne.symm hdb)
    (by rw [p1]; exact Ne.symm hab)
  have Hhd : c_list_link_tail (c_list_link_tail h0 hd a) hd b hd =
      ⟨a, b⟩ := by
    show c_list_link_before _ hd b hd = _
    rw [e2 hd, if_pos rfl, n1]
  have Hb : c_list_link_tail (c_list_link_tail h0 hd a) hd b b =
      ⟨hd, a⟩ := by
    show c_list_link_before _ hd b b = _
    rw [e2 b, if_neg (Ne.symm hdb), if_pos rfl, p1]
  have Ha : c_list_link_tail (c_list_link_tail h0 hd a) hd b a =
      ⟨b, hd⟩ := by
    show c_list_link_before _ hd b a = _
    have g : c_list_link_tail h0 hd a a = ⟨hd, hd⟩ := by
      rw [f1 a, if_neg (Ne.symm hda), if_pos rfl]
    rw [e2 a, if_neg (Ne.symm hda), if_neg hab, if_pos p1.symm, p1, g]
  exact forEachSafe_two_ring _ hd a b hda hdb hab Hhd Ha Hb

/-- `c_list_unlink` preserves the ring-consistency invariant: the
unlinked node leaves the tracked set and every remaining node stays
consistent. -/
theorem unlink_preserves (h : Heap) (S : Finset Nat) (t : Nat)
    (hinv : CListInv h S)
    (hpre : t ∈ S ∨ ((h t).next = t ∧ (h t).prev = t)) :
    CListInv (c_list_unlink h t) (S.erase t) := by
  by_cases htS : t ∈ S
  · by_cases hself : (h t).next = t
    · have hps : (h t).prev = t := (hinv.self_iff htS).mp hself
      have e := unlink_apply_self h t hself hps
      intro y hy
      have hyS := Finset.mem_of_mem_erase hy
      have hyt : y ≠ t := Finset.ne_of_mem_erase hy
      have hnt : (h y).next ≠ t := by
        intro hc
        have h1 : (h t).prev = y := hinv.prev_of_next hyS hc
        rw [hps] at h1
        exact hyt h1.symm
      have hpt : (h y).prev ≠ t := by
        intro hc
        have h1 : (h t).next = y := hinv.next_of_prev hyS hc
        rw [hself] at h1
        exact hyt h1.symm
      simp only [e]
      exact ⟨Finset.mem_erase.mpr ⟨hnt, hinv.next_mem hyS⟩,
        Finset.mem_erase.mpr ⟨hpt, hinv.prev_mem hyS⟩,
        hinv.next_prev hyS, hinv.prev_next hyS⟩
    · have hpt : (h t).prev ≠ t := fun hc => hself ((hinv.self_iff htS).mpr hc)
      have hnS : (h t).next ∈ S := hinv.next_mem htS
      have hpS : (h t).prev ∈ S := hinv.prev_mem htS
      have hnpr : (h ((h t).next)).prev = t := hinv.next_prev htS
      have hpnx : (h ((h t).prev)).next = t := hinv.prev_next htS
      by_cases hnp : (h t).next = (h t).prev
      · have e := unlink_apply_two h t hnp hself
        intro y hy
        have hyS := Finset.mem_of_mem_erase hy
        have hyt : y ≠ t := Finset.ne_of_mem_erase hy
        by_cases hyn : y = (h t).next
        · subst hyn
          have v : c_list_unlink h t ((h t).next) =
              ⟨(h t).next, (h t).next⟩ := by rw [e _, if_pos rfl]
          simp only [v]
          exact ⟨hy, hy, by simp only [v], by simp only [v]⟩
        · have hy' : c_list_unlink h t y = h y := by rw [e y, if_neg hyn]
          have hnt : (h y).next ≠ t := by
            intro hc
            have h1 : (h t).prev = y := hinv.prev_of_next hyS hc
            rw [← hnp] at h1
            exact hyn h1.symm
          have hnn : (h y).next ≠ (h t).next := by
            intro hc
            have h1 : (h ((h t).next)).prev = y := hinv.prev_of_next hyS hc
            rw [hnpr] at h1
            exact hyt h1.symm
          have hpt' : (h y).prev ≠ t := by
            intro hc
            have h1 : (h t).next = y := hinv.next_of_prev hyS hc
            exact hyn h1.symm
          have hpn : (h y).prev ≠ (h t).next := by
            intro hc
            have h1 : (h ((h t).next)).next = y := hinv.next_of_prev hyS hc
            rw [hnp, hpnx] at h1
            exact hyt h1.symm
          simp only [hy']
          refine ⟨Finset.mem_erase.mpr ⟨hnt, hinv.next_mem hyS⟩,
            Finset.mem_erase.mpr ⟨hpt', hinv.prev_mem hyS⟩, ?_, ?_⟩
          · rw [e ((h y).next), if_neg hnn]
            exact hinv.next_prev hyS
          · rw [e ((h y).prev), if_neg hpn]
            exact hinv.prev_next hyS
      · have e := unlink_apply_ne h t hnp
        have vn : c_list_unlink h t ((h t).next) =
            ⟨(h ((h t).next)).next, (h t).prev⟩ := by rw [e _, if_pos rfl]
        have vp : c_list_unlink h t ((h t).prev) =
            ⟨(h t).next, (h ((h t).prev)).prev⟩ := by
          rw [e _, if_neg (Ne.symm hnp), if_pos rfl]
        intro y hy
        have hyS := Finset.mem_of_mem_erase hy
        have hyt : y ≠ t := Finset.ne_of_mem_erase hy
        by_cases hyn : y = (h t).next
        · subst hyn
          have hmt : (h ((h t).next)).next ≠ t := by
            intro hc
            have h1 : (h t).prev = (h t).next := hinv.prev_of_next hnS hc
            exact hnp h1.symm
          have hmn : (h ((h t).next)).next ≠ (h t).next := by
            intro hc
            have h1 : (h ((h t).next)).prev = (h t).next :=
              (hinv.self_iff hnS).mp hc
            rw [hnpr] at h1
            exact hself h1.symm
          simp only [vn]
          refine ⟨Finset.mem_erase.mpr ⟨hmt, hinv.next_mem hnS⟩,
            Finset.mem_erase.mpr ⟨hpt, hpS⟩, ?_, ?_⟩
          · by_cases hmp : (h ((h t).next)).next = (h t).prev
            · rw [hmp, vp]
              have h1 := hinv.next_prev hnS
              rw [hmp] at h1
              simpa using h1
            · rw [e ((h ((h t).next)).next), if_neg hmn, if_neg hmp]
              exact hinv.next_prev hnS
          · rw [vp]
        · by_cases hyp : y = (h t).prev
          · subst hyp
            have hqt : (h ((h t).prev)).prev ≠ t := by
              intro hc
              have h1 : (h t).next = (h t).prev := hinv.next_of_prev hpS hc
              exact hnp h1
            have hqp : (h ((h t).prev)).prev ≠ (h t).prev := by
              intro hc
              have h1 : (h ((h t).prev)).next = (h t).prev :=
                (hinv.self_iff hpS).mpr hc
              rw [hpnx] at h1
              exact hpt h1.symm
            simp only [vp]
            refine ⟨Finset.mem_erase.mpr ⟨hself, hnS⟩,
              Finset.mem_erase.mpr ⟨hqt, hinv.prev_mem hpS⟩, ?_, ?_⟩
            · rw [vn]
            · by_cases hqn : (h ((h t).prev)).prev = (h t).next
              · rw [hqn, vn]
                have h1 := hinv.prev_next hpS
                rw [hqn] at h1
                simpa using h1
              · rw [e ((h ((h t).prev)).prev), if_neg hqn, if_neg hqp]
                exact hinv.prev_next hpS
          · have hy' : c_list_unlink h t y = h y := by
              rw [e y, if_neg hyn, if_neg hyp]
            have hnt : (h y).next ≠ t := by
              intro hc
              have h1 : (h t).prev = y := hinv.prev_of_next hyS hc
              exact hyp h1.symm
            have hnn : (h y).next ≠ (h t).next := by
              intro hc
              have h1 : (h ((h t).next)).prev = y := hinv.prev_of_next hyS hc
              rw [hnpr] at h1
              exact hyt h1.symm
            have hpt' : (h y).prev ≠ t := by
              intro hc
              have h1 : (h t).next = y := hinv.next_of_prev hyS hc
              exact hyn h1.symm
            have hpp : (h y).prev ≠ (h t).prev := by
              intro hc
              have h1 : (h ((h t).prev)).next = y := hinv.next_of_prev hyS hc
              rw [hpnx] at h1
              exact hyt h1.symm
            simp only [hy']
            refine ⟨Finset.mem_erase.mpr ⟨hnt, hinv.next_mem hyS⟩,
              Finset.mem_erase.mpr ⟨hpt', hinv.prev_mem hyS⟩, ?_, ?_⟩
            · by_cases hnpv : (h y).next = (h t).prev
              · rw [hnpv, vp]
                have h1 := hinv.next_prev hyS
                rw [hnpv] at h1
                simpa using h1
              · rw [e ((h y).next), if_neg hnn, if_neg hnpv]
                exact hinv.next_prev hyS
            · by_cases hpnv : (h y).prev = (h t).next
              · rw [hpnv, vn]
                have h1 := hinv.prev_next hyS
                rw [hpnv] at h1
                simpa using h1
              · rw [e ((h y).prev), if_neg hpnv, if_neg hpp]
                exact hinv.prev_next hyS
  · rcases hpre with hmem | ⟨hn, hp⟩
    · exact absurd hmem htS
    · have e := unlink_apply_self h t hn hp
      intro y hy
      have hyS := Finset.mem_of_mem_erase hy
      have hyt : y ≠ t := Finset.ne_of_mem_erase hy
      have hnt : (h y).next ≠ t := by
        intro hc
        have h1 : (h t).prev = y := hinv.prev_of_next hyS hc
        rw [hp] at h1
        exact hyt h1.symm
      have hpt : (h y).prev ≠ t := by
        intro hc
        have h1 : (h t).next = y := hinv.next_of_prev hyS hc
        rw [hn] at h1
        exact hyt h1.symm
      simp only [e]
      exact ⟨Finset.mem_erase.mpr ⟨hnt, hinv.next_mem hyS⟩,
        Finset.mem_erase.mpr ⟨hpt, hinv.prev_mem hyS⟩,
        hinv.next_prev hyS, hinv.prev_next hyS⟩

/-- `c_list_link_before` preserves the ring-consistency invariant when
the anchor is a tracked ring member and the new node is not yet linked. -/
theorem linkBefore_preserves (h : Heap) (S : Finset Nat) (w t : Nat)
    (hinv : CListInv h S) (hw : w ∈ S) (ht : t ∉ S) :
    CListInv (c_list_link_before h w t) (insert t S) := by
  have htw : t ≠ w := fun hc => ht (hc ▸ hw)
  have hpS : (h w).prev ∈ S := hinv.prev_mem hw
  have htp : t ≠ (h w).prev := fun hc => ht (hc ▸ hpS)
  by_cases hpw : (h w).prev = w
  · have e := link_before_apply_self h w t hpw htw
    have hw' : c_list_link_before h w t w = ⟨t, t⟩ := by
      rw [e w, if_pos rfl]
    have ht' : c_list_link_before h w t t = ⟨w, w⟩ := by
      rw [e t, if_neg htw, if_pos rfl]
    intro y hy
    rcases Finset.mem_insert.mp hy with rfl | hyS
    · simp only [ht']
      exact ⟨Finset.mem_insert_of_mem hw, Finset.mem_insert_of_mem hw,
        by simp only [hw'], by simp only [hw']⟩
    · by_cases hyw : y = w
      · subst hyw
        simp only [hw']
        exact ⟨Finset.mem_insert_self t S, Finset.mem_insert_self t S,
          by simp only [ht'], by simp only [ht']⟩
      · have hyt : y ≠ t := fun hc => ht (hc ▸ hyS)
        have hy' : c_list_link_before h w t y = h y := by
          rw [e y, if_neg hyw, if_neg hyt]
        have hnS : (h y).next ∈ S := hinv.next_mem hyS
        have hpS' : (h y).prev ∈ S := hinv.prev_mem hyS
        have hnw : (h y).next ≠ w := by
          intro hc
          have h1 : (h w).prev = y := hinv.prev_of_next hyS hc
          rw [hpw] at h1
          exact hyw h1.symm
        have hnt : (h y).next ≠ t := fun hc => ht (hc ▸ hnS)
        have hqw : (h y).prev ≠ w := by
          intro hc
          have h1 : (h w).next = y := hinv.next_of_prev hyS hc
          have h2 : (h w).next = w := (hinv.self_iff hw).mpr hpw
          rw [h2] at h1
          exact hyw h1.symm
        have hqt : (h y).prev ≠ t := fun hc => ht (hc ▸ hpS')
        simp only [hy']
        refine ⟨Finset.mem_insert_of_mem hnS, Finset.mem_insert_of_mem hpS',
          ?_, ?_⟩
        · rw [e ((h y).next), if_neg hnw, if_neg hnt]
          exact hinv.next_prev hyS
        · rw [e ((h y).prev), if_neg hqw, if_neg hqt]
          exact hinv.prev_next hyS
  · have e := link_before_apply_ne h w t hpw htw htp
    have hw' : c_list_link_before h w t w = ⟨(h w).next, t⟩ := by
      rw [e w, if_pos rfl]
    have ht' : c_list_link_before h w t t = ⟨w, (h w).prev⟩ := by
      rw [e t, if_neg htw, if_pos rfl]
    have hp' : c_list_link_before h w t ((h w).prev) =
        ⟨t, (h ((h w).prev)).prev⟩ := by
      rw [e ((h w).prev), if_neg hpw, if_neg (Ne.symm htp), if_pos rfl]
    have hnwS : (h w).next ∈ S := hinv.next_mem hw
    have hnww : (h w).next ≠ w := fun hc => hpw ((hinv.self_iff hw).mp hc)
    have hnwt : (h w).next ≠ t := fun hc => ht (hc ▸ hnwS)
    intro y hy
    rcases Finset.mem_insert.mp hy with rfl | hyS
    · simp only [ht']
      exact ⟨Finset.mem_insert_of_mem hw, Finset.mem_insert_of_mem hpS,
        by simp only [hw'], by simp only [hp']⟩
    · by_cases hyw : y = w
      · subst hyw
        simp only [hw']
        refine ⟨Finset.mem_insert_of_mem hnwS, Finset.mem_insert_self t S,
          ?_, by simp only [ht']⟩
        by_cases hnp : (h y).next = (h y).prev
        · rw [hnp, hp']
          have h1 := hinv.next_prev hw
          rw [hnp] at h1
          simpa using h1
        · rw [e ((h y).next), if_neg hnww, if_neg hnwt, if_neg hnp]
          exact hinv.next_prev hw
      · by_cases hyp : y = (h w).prev
        · subst hyp
          simp only [hp']
          refine ⟨Finset.mem_insert_self t S,
            Finset.mem_insert_of_mem (hinv.prev_mem hyS),
            by simp only [ht'], ?_⟩
          by_cases hqw : (h ((h w).prev)).prev = w
          · rw [hqw, hw']
            have h1 := hinv.next_of_prev hyS hqw
            simpa using h1
          · have hqp : (h ((h w).prev)).prev ≠ (h w).prev := by
              intro hc
              have h1 : (h ((h w).prev)).next = (h w).prev :=
                (hinv.self_iff hyS).mpr hc
              have h2 : (h ((h w).prev)).next = w := hinv.prev_next hw
              rw [h2] at h1
              exact hpw h1.symm
            have hqt : (h ((h w).prev)).prev ≠ t := fun hc =>
              ht (hc ▸ hinv.prev_mem hyS)
            rw [e ((h ((h w).prev)).prev), if_neg hqw, if_neg hqt, if_neg hqp]
            exact hinv.prev_next hyS
        · have hyt : y ≠ t := fun hc => ht (hc ▸ hyS)
          have hy' : c_list_link_before h w t y = h y := by
            rw [e y, if_neg hyw, if_neg hyt, if_neg hyp]
          have hnS : (h y).next ∈ S := hinv.next_mem hyS
          have hpS' : (h y).prev ∈ S := hinv.prev_mem hyS
          have hnyw : (h y).next ≠ w := by
            intro hc
            have h1 : (h w).prev = y := hinv.prev_of_next hyS hc
            exact hyp h1.symm
          have hnyt : (h y).next ≠ t := fun hc => ht (hc ▸ hnS)
          have hpyp : (h y).prev ≠ (h w).prev := by
            intro hc
            have h1 : (h ((h y).prev)).next = y := hinv.prev_next hyS
            rw [hc] at h1
            have h2 : (h ((h w).prev)).next = w := hinv.prev_next hw
            rw [h2] at h1
            exact hyw h1.symm
          have hpyt : (h y).prev ≠ t := fun hc => ht (hc ▸ hpS')
          simp only [hy']
          refine ⟨Finset.mem_insert_of_mem hnS, Finset.mem_insert_of_mem hpS',
            ?_, ?_⟩
          · by_cases hnyp : (h y).next = (h w).prev
            · rw [hnyp, hp']
              have h1 := hinv.next_prev hyS
              rw [hnyp] at h1
              simpa using h1
            · rw [e ((h y).next), if_neg hnyw, if_neg hnyt, if_neg hnyp]
              exact hinv.next_prev hyS
          · by_cases hpyw : (h y).prev = w
            · rw [hpyw, hw']
              have h1 := hinv.prev_next hyS
              rw [hpyw] at h1
              simpa using h1
            · rw [e ((h y).prev), if_neg hpyw, if_neg hpyt, if_neg hpyp]
              exact hinv.prev_next hyS

theorem c8_witness :
    (c_list_for_each_safe_unlink
        (c_list_link_tail
          (c_list_link_tail (fun _ => C_LIST_INIT 0) 0 1) 0 2) 0 3).2 =
      [1, 2] ∧
    c_list_is_empty
      (c_list_for_each_safe_unlink
        (c_list_link_tail
          (c_list_link_tail (fun _ => C_LIST_INIT 0) 0 1) 0 2) 0 3).1
      (some 0) = true :=
  c8_safe_iteration_unlink_all (fun _ => C_LIST_INIT 0) 0 1 2
    (by decide) (by decide) (by decide) rfl

/-- A mutating list call: the three heap-mutating primitives. -/
inductive COp where
  | before (anchor node : Nat)
  | after (anchor node : Nat)
  | remove (node : Nat)
deriving DecidableEq, Repr

/-- Execute one call on the heap. -/
def applyOp (h : Heap) : COp → Heap
  | .before w t => c_list_link_before h w t
  | .after w t => c_list_link_after h w t
  | .remove t => c_list_unlink h t

/-- Ghost bookkeeping: the set of linked nodes after one call. -/
def opNodes (S : Finset Nat) : COp → Finset Nat
  | .before _ t => insert t S
  | .after _ t => insert t S
  | .remove t => S.erase t

/-- Precondition of one call: link anchors are ring members and the new
node is not linked anywhere; unlinked nodes are ring members or
initialized (self-referential). -/
def opPre (h : Heap) (S : Finset Nat) : COp → Prop
  | .before w t => w ∈ S ∧ t ∉ S
  | .after w t => w ∈ S ∧ t ∉ S
  | .remove t => t ∈ S ∨ ((h t).next = t ∧ (h t).prev = t)

instance (h : Heap) (S : Finset Nat) (op : COp) : Decidable (opPre h S op) := by
  cases op <;> (unfold opPre; infer_instance)

/-- Execute a sequence of calls. -/
def runOps (h : Heap) : List COp → Heap
  | [] => h
  | op :: ops => runOps (applyOp h op) ops

/-- Ghost bookkeeping for a sequence of calls. -/
def runNodes (S : Finset Nat) : List COp → Finset Nat
  | [] => S
  | op :: ops => runNodes (opNodes S op) ops

/-- All preconditions hold along the sequence. -/
def stepsOK (h : Heap) (S : Finset Nat) : List COp → Prop
  | [] => True
  | op :: ops => opPre h S op ∧ stepsOK (applyOp h op) (opNodes S op) ops

instance instDecStepsOK (h : Heap) (S : Finset Nat) :
    (ops : List COp) → Decidable (stepsOK h S ops)
  | [] => .isTrue trivial
  | op :: ops =>
    letI := instDecStepsOK (applyOp h op) (opNodes S op) ops
    inferInstanceAs
      (Decidable (opPre h S op ∧ stepsOK (applyOp h op) (opNodes S op) ops))

/-- Any single call with its precondition preserves the invariant. -/
theorem applyOp_preserves (h : Heap) (S : Finset Nat) (op : COp)
    (hinv : CListInv h S) (hpre : opPre h S op) :
    CListInv (applyOp h op) (opNodes S op) := by
  cases op with
  | before w t => exact linkBefore_preserves h S w t hinv hpre.1 hpre.2
  | after w t => exact linkBefore_preserves h S w t hinv hpre.1 hpre.2
  | remove t => exact unlink_preserves h S t hinv hpre

/-- C2: starting from any consistent ring state, after every sequence of
`c_list_link_before`/`c_list_link_after`/`c_list_unlink` calls whose
preconditions hold, every node still linked satisfies
`y.next.prev == y` and `y.prev.next == y` (and since every prefix of such
a sequence again satisfies the hypotheses, the invariant holds after each
individual operation). -/
theorem c2_ring_consistency_invariant (h : Heap) (S : Finset Nat)
    (ops : List COp) (hinv : CListInv h S) (hok : stepsOK h S ops) :
    CListInv (runOps h ops) (runNodes S ops) := by
  induction ops generalizing h S with
  | nil => exact hinv
  | cons op ops ih =>
    exact ih (applyOp h op) (opNodes S op)
      (applyOp_preserves h S op hinv hok.1) hok.2

theorem c2_witness :
    CListInv
      (runOps (fun _ => C_LIST_INIT 0)
        [COp.before 0 1, COp.after 0 2, COp.remove 1, COp.remove 2])
      (runNodes ({0} : Finset Nat)
        [COp.before 0 1, COp.after 0 2, COp.remove 1, COp.remove 2]) :=
  c2_ring_consistency_invariant (fun _ => C_LIST_INIT 0) ({0} : Finset Nat)
    [COp.before 0 1, COp.after 0 2, COp.remove 1, COp.remove 2]
    (by decide) (by decide)
